import Mathlib

/-!
Verification development for a Reddit thread scraper.

The repository implements a small HTTP service that takes a user-supplied
Reddit thread URL, normalises it to a JSON endpoint, fetches the thread
(optionally with a cached OAuth token), and flattens the nested comment
tree into an ordered list of comment records.  Three historical variants
of the URL resolver exist in the sources:

* `toRedditJsonUrl`    — index.js: two regexes against the OAuth host,
                         returning null when neither matches;
* `toRedditJsonUrlP0`  — variant with a single loose regex against the
                         public JSON host plus a string-cleanup fallback;
* `toRedditJsonUrlP0F` — fallback-only variant (cleanup + ".json" suffix);
* `toRedditJsonUrlP1`  — fallback variant that additionally rewrites
                         old/mobile/pay.reddit.com to www.reddit.com.

Regular expressions are embedded as explicit scanners over `List Char`:
a JS `String.match` with a non-global regex returns the leftmost match,
which the scanner `firstSome` reproduces by trying the pattern at every
start position in order.  The character classes involved (`[^/]+`,
`[a-z0-9]+` with `/i`) contain no `/`, so the greedy captures are the
maximal `takeWhile` runs and no backtracking can change success.
-/

/-- Case-insensitive character test modelling the regex `/i` flag for the
ASCII patterns used in the sources: input `c` matches pattern char `p`
(lowercase letter or `/`) iff `c = p` or `c` is the uppercase form of `p`. -/
def ciEq (p c : Char) : Bool :=
  c == p || (decide (65 ≤ c.toNat) && decide (c.toNat ≤ 90) &&
             decide (c.toNat + 32 = p.toNat))

/-- Match the literal pattern `pat` case-insensitively at the front of `s`,
returning the rest of `s` on success. -/
def stripCI : List Char → List Char → Option (List Char)
  | [], s => some s
  | _ :: _, [] => none
  | p :: ps, c :: cs => if ciEq p c then stripCI ps cs else none

/-- Leftmost-match scanner: try `f` at every start position of the string,
in order, returning the first success.  This reproduces the semantics of a
JS `String.match` with a non-global regex. -/
def firstSome {α : Type} (f : List Char → Option α) : List Char → Option α
  | [] => f []
  | c :: cs =>
    match f (c :: cs) with
    | some r => some r
    | none => firstSome f cs

/-- Character class `[^/]` of the index.js regexes. -/
def notSlash (c : Char) : Bool := c != '/'

/-- Character class `[a-z0-9]` under the `/i` flag (variant P0 regex). -/
def isAlnumCI (c : Char) : Bool :=
  (decide (97 ≤ c.toNat) && decide (c.toNat ≤ 122)) ||
  (decide (65 ≤ c.toNat) && decide (c.toNat ≤ 90)) ||
  (decide (48 ≤ c.toNat) && decide (c.toNat ≤ 57))

/-- The literal part `/r/` of the regex `\/r\/([^/]+)\/comments\/([^/]+)`. -/
def rPat : List Char := ['/', 'r', '/']

/-- The literal part `/comments/` of the thread-id regexes. -/
def commentsPat : List Char := ['/', 'c', 'o', 'm', 'm', 'e', 'n', 't', 's', '/']

/-- Attempt of `/\/r\/([^/]+)\/comments\/([^/]+)/i` at one start position:
literal `/r/`, then a nonempty run of non-slash chars (the subreddit),
then literal `/comments/`, then a nonempty run of non-slash chars (the id). -/
def matchRAt (s : List Char) : Option (List Char × List Char) :=
  match stripCI rPat s with
  | none => none
  | some s1 =>
    if (s1.takeWhile notSlash).isEmpty then none
    else
      match stripCI commentsPat (s1.dropWhile notSlash) with
      | none => none
      | some s2 =>
        if (s2.takeWhile notSlash).isEmpty then none
        else some (s1.takeWhile notSlash, s2.takeWhile notSlash)

/-- Attempt of `/\/comments\/([^/]+)/i` at one start position. -/
def matchCAt (s : List Char) : Option (List Char) :=
  match stripCI commentsPat s with
  | none => none
  | some s1 =>
    if (s1.takeWhile notSlash).isEmpty then none
    else some (s1.takeWhile notSlash)

/-- Attempt of `/\/comments\/([a-z0-9]+)/i` at one start position
(variant P0). -/
def matchC2At (s : List Char) : Option (List Char) :=
  match stripCI commentsPat s with
  | none => none
  | some s1 =>
    if (s1.takeWhile isAlnumCI).isEmpty then none
    else some (s1.takeWhile isAlnumCI)

/-- index.js `toRedditJsonUrl`: match `/r/{sub}/comments/{id}` and build the
OAuth endpoint; otherwise match the looser `/comments/{id}`; otherwise null. -/
def toRedditJsonUrl (userUrl : String) : Option String :=
  match firstSome matchRAt userUrl.toList with
  | some (sub, id) =>
    some ("https://oauth.reddit.com/r/" ++ String.mk sub ++ "/comments/" ++ String.mk id)
  | none =>
    match firstSome matchCAt userUrl.toList with
    | some id => some ("https://oauth.reddit.com/comments/" ++ String.mk id)
    | none => none

/-- `beginsWith pat l` : `pat` is a literal prefix of `l` (case-sensitive). -/
def beginsWith : List Char → List Char → Bool
  | [], _ => true
  | _ :: _, [] => false
  | p :: ps, c :: cs => p == c && beginsWith ps cs

/-- `endsWith suf l` models JS `l.endsWith(suf)`. -/
def endsWith (suf l : List Char) : Bool := beginsWith suf.reverse l.reverse

/-- The `.json` suffix appended by the fallback path. -/
def jsonSuf : List Char := ['.', 'j', 's', 'o', 'n']

/-- `userUrl.split("?")[0]` : the part of the string before the first `?`. -/
def stripQuery (l : List Char) : List Char := l.takeWhile (fun c => c != '?')

/-- `.replace(/\/+$/, "")` : remove the trailing run of slashes. -/
def stripTrailingSlashes (l : List Char) : List Char :=
  (l.reverse.dropWhile (fun c => c == '/')).reverse

/-- The cleanup shared by the fallback paths: strip the query string, then
strip trailing slashes. -/
def cleanUrl (l : List Char) : List Char := stripTrailingSlashes (stripQuery l)

/-- The fallback normalisation: clean the URL and append `.json` if the
cleaned string does not already end with it. -/
def fallbackJson (l : List Char) : List Char :=
  if endsWith jsonSuf (cleanUrl l) then cleanUrl l else cleanUrl l ++ jsonSuf

/-- Alternate-frontend hostname `old.reddit.com` of the P1 rewrite regex. -/
def oldHost : List Char := "old.reddit.com".toList

/-- Alternate-frontend hostname `mobile.reddit.com` of the P1 rewrite regex. -/
def mobileHost : List Char := "mobile.reddit.com".toList

/-- Alternate-frontend hostname `pay.reddit.com` of the P1 rewrite regex. -/
def payHost : List Char := "pay.reddit.com".toList

/-- Canonical hostname substituted by the P1 rewrite. -/
def wwwHost : List Char := "www.reddit.com".toList

/-- `.replace(/(old|mobile|pay)\.reddit\.com/, "www.reddit.com")` : replace
the leftmost occurrence of an alternate-frontend hostname (non-global regex,
so only the first occurrence is replaced). -/
def replaceFirstHost : List Char → List Char
  | [] => []
  | c :: cs =>
    if beginsWith oldHost (c :: cs) then wwwHost ++ (c :: cs).drop oldHost.length
    else if beginsWith mobileHost (c :: cs) then wwwHost ++ (c :: cs).drop mobileHost.length
    else if beginsWith payHost (c :: cs) then wwwHost ++ (c :: cs).drop payHost.length
    else c :: replaceFirstHost cs

/-- Whether an alternate-frontend hostname occurs anywhere in the string. -/
def containsHost : List Char → Bool
  | [] => false
  | c :: cs =>
    beginsWith oldHost (c :: cs) || beginsWith mobileHost (c :: cs) ||
    beginsWith payHost (c :: cs) || containsHost cs

/-- Variant P0 `toRedditJsonUrl` (src/unnamed/part_000, first document):
match `/comments/{id}` with an alphanumeric id and build the public JSON
endpoint, else fall back to the cleanup + `.json` normalisation. -/
def toRedditJsonUrlP0 (userUrl : String) : String :=
  match firstSome matchC2At userUrl.toList with
  | some id => "https://www.reddit.com/comments/" ++ String.mk id ++ ".json"
  | none => String.mk (fallbackJson userUrl.toList)

/-- Fallback-only `toRedditJsonUrl` (src/unnamed/part_000, second document,
lines 261-265): cleanup + `.json` suffix, no regex. -/
def toRedditJsonUrlP0F (userUrl : String) : String :=
  String.mk (fallbackJson userUrl.toList)

/-- Variant P1 `toRedditJsonUrl` (src/unnamed/part_001): cleanup + `.json`
suffix, then rewrite the first alternate-frontend hostname to
`www.reddit.com`. -/
def toRedditJsonUrlP1 (userUrl : String) : String :=
  String.mk (replaceFirstHost (fallbackJson userUrl.toList))

-- sanity checks (development only)
example : toRedditJsonUrl "https://www.reddit.com/r/lean/comments/abc123/title/"
    = some "https://oauth.reddit.com/r/lean/comments/abc123" := rfl
example : toRedditJsonUrl "https://redd.it/comments/xy9/extra"
    = some "https://oauth.reddit.com/comments/xy9" := rfl
example : toRedditJsonUrl "https://example.com/nothing" = none := rfl
example : toRedditJsonUrl "/R/Lean/COMMENTS/Abc"
    = some "https://oauth.reddit.com/r/Lean/comments/Abc" := rfl
example : toRedditJsonUrlP0 "https://www.reddit.com/comments/xyz?a=b"
    = "https://www.reddit.com/comments/xyz.json" := rfl
example : toRedditJsonUrlP0 "https://example.com/page?q=1"
    = "https://example.com/page.json" := rfl
example : toRedditJsonUrlP0F "https://example.com/page///"
    = "https://example.com/page.json" := rfl
example : toRedditJsonUrlP0F "https://example.com/page.json"
    = "https://example.com/page.json" := rfl
example : toRedditJsonUrlP1 "https://old.reddit.com/r/a/comments/b/?x=1"
    = "https://www.reddit.com/r/a/comments/b.json" := rfl

/-!
SECTION: Comment tree data model

`extractComments` (identical in all source variants) walks a list of raw
comment nodes.  A node has a `kind` tag, and under `data` the fields
`body`, `author`, `score`, `created_utc` (all possibly absent) and
`replies?.data?.children` (a possibly-absent child list).  JS truthiness:
`if (d.body)` is false both for an absent body and for the empty string.
-/

/-- A node of the raw Reddit comment tree: `kind` together with the fields
of `data` that `extractComments` reads.  `replies` is `none` when the
optional chain `d.replies?.data?.children` is absent. -/
inductive RNode : Type where
  | mk (kind : String) (body : Option String) (author : Option String)
       (score : Option Int) (created_utc : Option Int)
       (replies : Option (List RNode)) : RNode

/-- The `kind` tag of a node. -/
def RNode.kind : RNode → String
  | .mk k _ _ _ _ _ => k

/-- The `data.body` field of a node. -/
def RNode.body : RNode → Option String
  | .mk _ b _ _ _ _ => b

/-- The `data.author` field of a node. -/
def RNode.author : RNode → Option String
  | .mk _ _ a _ _ _ => a

/-- The `data.score` field of a node. -/
def RNode.score : RNode → Option Int
  | .mk _ _ _ s _ _ => s

/-- The `data.created_utc` field of a node. -/
def RNode.created_utc : RNode → Option Int
  | .mk _ _ _ _ c _ => c

/-- The `data.replies?.data?.children` chain of a node. -/
def RNode.replies : RNode → Option (List RNode)
  | .mk _ _ _ _ _ r => r

/-- An output comment record: `{author, body, score, created_utc}`. -/
structure CommentRecord where
  author : String
  body : String
  score : Int
  created_utc : Option Int
deriving DecidableEq, Repr

/-- JS truthiness of an optional string: present and nonempty. -/
def strTruthy : Option String → Bool
  | some s => s != ""
  | none => false

/-- The record pushed for a comment node: `author ?? "[deleted]"`,
`score ?? 0`, `created_utc ?? null`, body as-is. -/
def recordOf (n : RNode) : CommentRecord :=
  { author := n.author.getD "[deleted]"
    body := n.body.getD ""
    score := n.score.getD 0
    created_utc := n.created_utc }

/-- `extractComments` from the sources: for each child of kind `"t1"`, push
a record when `d.body` is truthy, then recurse into
`d.replies?.data?.children` when present; other kinds are skipped without
recursion. -/
def extractComments : List RNode → List CommentRecord
  | [] => []
  | RNode.mk k b a s c r :: rest =>
    (if k = "t1" then
      (if strTruthy b then [recordOf (RNode.mk k b a s c r)] else []) ++
      (match r with
       | some rs => extractComments rs
       | none => [])
    else []) ++ extractComments rest

-- sanity checks (development only)
example :
    extractComments
      [RNode.mk "t1" (some "hi") (some "a") (some 3) (some 100)
        (some [RNode.mk "t1" (some "yo") none none none none]),
       RNode.mk "more" (some "x") none none none none] =
      [{ author := "a", body := "hi", score := 3, created_utc := some 100 },
       { author := "[deleted]", body := "yo", score := 0, created_utc := none }] := by
  simp [extractComments, recordOf, strTruthy, RNode.author, RNode.body, RNode.score,
    RNode.created_utc]

/-- The records the loop body pushes for one node before recursing: one
record when the node is a comment (`kind = "t1"`) with a truthy body,
nothing otherwise. -/
def emitOne (n : RNode) : List CommentRecord :=
  if n.kind = "t1" ∧ strTruthy n.body = true then [recordOf n] else []

/-- The forest the loop recurses into for one node: its reply children when
the node is a comment and they are present; nodes of other kinds are not
recursed into. -/
def childForest (n : RNode) : List RNode :=
  if n.kind = "t1" then n.replies.getD [] else []


theorem sizeOf_childForest_lt (n : RNode) : sizeOf (childForest n) < sizeOf n := by
  obtain ⟨k, b, a, s, c, r⟩ := n
  have h1 : childForest (RNode.mk k b a s c r) = if k = "t1" then r.getD [] else [] := rfl
  rw [h1]
  cases r with
  | none =>
    split <;>
      simp only [Option.getD_none, List.nil.sizeOf_spec, RNode.mk.sizeOf_spec,
        Option.none.sizeOf_spec] <;> omega
  | some rs =>
    split <;>
      simp only [Option.getD_some, List.nil.sizeOf_spec, RNode.mk.sizeOf_spec,
        Option.some.sizeOf_spec] <;> omega

theorem sizeOf_repliesGetD_lt (n : RNode) : sizeOf (n.replies.getD []) < sizeOf n := by
  obtain ⟨k, b, a, s, c, r⟩ := n
  have h1 : (RNode.mk k b a s c r).replies = r := rfl
  rw [h1]
  cases r with
  | none =>
    simp only [Option.getD_none, List.nil.sizeOf_spec, RNode.mk.sizeOf_spec,
      Option.none.sizeOf_spec]
    omega
  | some rs =>
    simp only [Option.getD_some, RNode.mk.sizeOf_spec, Option.some.sizeOf_spec]
    omega

/-- Specification-level pre-order flattening of a comment forest: for each
node in order, its own record (if any), then the records of its reply
subtree, then the rest of the forest. -/
def preOrderFlat : List RNode → List CommentRecord
  | [] => []
  | n :: rest => emitOne n ++ preOrderFlat (childForest n) ++ preOrderFlat rest
termination_by l => sizeOf l
decreasing_by
  · have := sizeOf_childForest_lt n
    simp only [List.cons.sizeOf_spec]
    omega
  · simp only [List.cons.sizeOf_spec]
    omega

/-- All nodes of a forest, each node listed before the nodes of its reply
subtree (used to state which node of the input a record came from). -/
def allNodes : List RNode → List RNode
  | [] => []
  | n :: rest => n :: (allNodes (n.replies.getD []) ++ allNodes rest)
termination_by l => sizeOf l
decreasing_by
  · have := sizeOf_repliesGetD_lt n
    simp only [List.cons.sizeOf_spec]
    omega
  · simp only [List.cons.sizeOf_spec]
    omega

/-- C1: the flat sequence produced by the comment flattener is exactly the
pre-order traversal of the reply tree — for every forest of nested comment
nodes, each node contributes its record (when emitted) before all records
of its reply subtree, and those before the records of its next sibling. -/
theorem extractComments_eq_preOrderFlat (l : List RNode) :
    extractComments l = preOrderFlat l := by
  induction l using extractComments.induct with
  | case1 => simp [extractComments, preOrderFlat]
  | case2 k b a s c r rest ih1 ih2 =>
    cases r with
    | none =>
      simp only [extractComments, preOrderFlat, emitOne, childForest,
        RNode.kind, RNode.body, RNode.replies, Option.getD_none, ih2]
      by_cases hk : k = "t1"
      · subst hk
        simp [preOrderFlat]
      · simp [hk, preOrderFlat]
    | some rs =>
      simp only at ih1
      simp only [extractComments, preOrderFlat, emitOne, childForest,
        RNode.kind, RNode.body, RNode.replies, Option.getD_some, ih1, ih2]
      by_cases hk : k = "t1"
      · subst hk
        simp
      · simp [hk, preOrderFlat]

/-- Example tree of the spec: node A (body "hi") with child replies B
(body "yo") and C (no body) where C has one grandchild D (body "hey"). -/
def nodeD : RNode := RNode.mk "t1" (some "hey") (some "dan") (some 1) (some 400) none

/-- Node C of the example tree: kind `"t1"` but no body, one reply D. -/
def nodeC : RNode := RNode.mk "t1" none (some "carol") (some 2) (some 300) (some [nodeD])

/-- Node B of the example tree. -/
def nodeB : RNode := RNode.mk "t1" (some "yo") (some "bob") (some 5) (some 200) none

/-- Node A of the example tree. -/
def nodeA : RNode := RNode.mk "t1" (some "hi") (some "alice") (some 7) (some 100)
  (some [nodeB, nodeC])

/-- C2: every record produced by the flattener comes from a node of kind
`"t1"` with a truthy (present, nonempty) body occurring in the tree; a
`"t1"` node without a body yields no record but its replies are still
traversed — on the tree where A ("hi") has children B ("yo") and C (no
body, grandchild D "hey"), the output is exactly the records of A, B, D. -/
theorem extractComments_records_from_t1 :
    (∀ (l : List RNode) (r : CommentRecord), r ∈ extractComments l →
      ∃ n, n ∈ allNodes l ∧ n.kind = "t1" ∧ strTruthy n.body = true ∧ r = recordOf n)
    ∧ extractComments [nodeA] =
        [{ author := "alice", body := "hi", score := 7, created_utc := some 100 },
         { author := "bob", body := "yo", score := 5, created_utc := some 200 },
         { author := "dan", body := "hey", score := 1, created_utc := some 400 }] := by
  constructor
  · intro l
    induction l using extractComments.induct with
    | case1 => intro r h; simp [extractComments] at h
    | case2 k b a s c rr rest ih1 ih2 =>
      cases rr with
      | none =>
        intro r h
        by_cases hk : k = "t1"
        · by_cases hb : strTruthy b = true
          · simp only [extractComments, hk, hb, if_true, List.append_nil,
              List.mem_append, List.mem_singleton] at h
            rcases h with h | h
            · refine ⟨RNode.mk k b a s c none, by simp [allNodes], ?_, ?_, h⟩
              · simpa [RNode.kind] using hk
              · simpa [RNode.body] using hb
            · obtain ⟨n, hn, h1, h2, h3⟩ := ih2 r h
              exact ⟨n, by simp [allNodes, hn], h1, h2, h3⟩
          · simp only [extractComments, hk, hb, if_true, if_false, Bool.false_eq_true,
              List.append_nil, List.nil_append, List.mem_append] at h
            obtain ⟨n, hn, h1, h2, h3⟩ := ih2 r h
            exact ⟨n, by simp [allNodes, hn], h1, h2, h3⟩
        · simp only [extractComments, hk, if_false, List.nil_append] at h
          obtain ⟨n, hn, h1, h2, h3⟩ := ih2 r h
          exact ⟨n, by simp [allNodes, hn], h1, h2, h3⟩
      | some rs =>
        intro r h
        simp only at ih1
        have hlift : ∀ n : RNode, n ∈ allNodes rs →
            n ∈ allNodes (RNode.mk k b a s c (some rs) :: rest) := by
          intro n hn
          simp [allNodes, RNode.replies, hn]
        by_cases hk : k = "t1"
        · by_cases hb : strTruthy b = true
          · simp only [extractComments, hk, hb, if_true, List.mem_append,
              List.mem_singleton] at h
            rcases h with (h | h) | h
            · refine ⟨RNode.mk k b a s c (some rs), by simp [allNodes], ?_, ?_, h⟩
              · simpa [RNode.kind] using hk
              · simpa [RNode.body] using hb
            · obtain ⟨n, hn, h1, h2, h3⟩ := ih1 r h
              exact ⟨n, hlift n hn, h1, h2, h3⟩
            · obtain ⟨n, hn, h1, h2, h3⟩ := ih2 r h
              exact ⟨n, by simp [allNodes, hn], h1, h2, h3⟩
          · simp only [extractComments, hk, hb, if_true, if_false, Bool.false_eq_true,
              List.nil_append, List.mem_append] at h
            rcases h with h | h
            · obtain ⟨n, hn, h1, h2, h3⟩ := ih1 r h
              exact ⟨n, hlift n hn, h1, h2, h3⟩
            · obtain ⟨n, hn, h1, h2, h3⟩ := ih2 r h
              exact ⟨n, by simp [allNodes, hn], h1, h2, h3⟩
        · simp only [extractComments, hk, if_false, List.nil_append] at h
          obtain ⟨n, hn, h1, h2, h3⟩ := ih2 r h
          exact ⟨n, by simp [allNodes, hn], h1, h2, h3⟩
  · simp [extractComments, nodeA, nodeB, nodeC, nodeD, recordOf, strTruthy,
      RNode.author, RNode.body, RNode.score, RNode.created_utc]

/-- Witness for C2 at a concrete input: the record of B in the singleton
forest `[nodeB]` is traced back to a `"t1"` node with truthy body. -/
theorem extractComments_records_from_t1_witness :
    ∃ n, n ∈ allNodes [nodeB] ∧ n.kind = "t1" ∧ strTruthy n.body = true ∧
      ({ author := "bob", body := "yo", score := 5, created_utc := some 200 } :
        CommentRecord) = recordOf n :=
  extractComments_records_from_t1.1 [nodeB] _
    (by simp [extractComments, nodeB, recordOf, strTruthy, RNode.author, RNode.body,
      RNode.score, RNode.created_utc])

/-- C7: for a comment node flattened into a record, a missing author yields
the `"[deleted]"` sentinel, a missing score yields 0, a missing
`created_utc` yields null, and present values of these fields are passed
through unchanged. -/
theorem extractComments_field_defaults :
    ∀ (b : String) (a : Option String) (s : Option Int) (c : Option Int),
      b ≠ "" →
      ∃ r, extractComments [RNode.mk "t1" (some b) a s c none] = [r] ∧
        r.body = b ∧
        (a = none → r.author = "[deleted]") ∧ (∀ x, a = some x → r.author = x) ∧
        (s = none → r.score = 0) ∧ (∀ x, s = some x → r.score = x) ∧
        (c = none → r.created_utc = none) ∧ (∀ x, c = some x → r.created_utc = some x) := by
  intro b a s c hb
  refine ⟨recordOf (RNode.mk "t1" (some b) a s c none),
    by simp [extractComments, strTruthy, hb], ?_, ?_, ?_, ?_, ?_, ?_, ?_⟩
  · simp [recordOf, RNode.body]
  · rintro rfl
    simp [recordOf, RNode.author]
  · rintro x rfl
    simp [recordOf, RNode.author]
  · rintro rfl
    simp [recordOf, RNode.score]
  · rintro x rfl
    simp [recordOf, RNode.score]
  · rintro rfl
    simp [recordOf, RNode.created_utc]
  · rintro x rfl
    simp [recordOf, RNode.created_utc]

/-- Witness for C7 at a concrete input: a node with body "hi" and all other
fields absent yields the defaulted record. -/
theorem extractComments_field_defaults_witness :
    ∃ r, extractComments [RNode.mk "t1" (some "hi") none none none none] = [r] ∧
      r.body = "hi" ∧
      (none = (none : Option String) → r.author = "[deleted]") ∧
      (∀ x, (none : Option String) = some x → r.author = x) ∧
      ((none : Option Int) = none → r.score = 0) ∧
      (∀ x, (none : Option Int) = some x → r.score = x) ∧
      ((none : Option Int) = none → r.created_utc = none) ∧
      (∀ x, (none : Option Int) = some x → r.created_utc = some x) :=
  extractComments_field_defaults "hi" none none none (by decide)

/-- C9: a `"t1"` node whose body is present but equal to the empty string
yields no record (the body test is a truthiness check) while its replies
are still traversed, and an empty-string author on an emitted record is
preserved verbatim instead of being replaced by the `"[deleted]"`
sentinel. -/
theorem extractComments_empty_body_author :
    (∀ (a : Option String) (s : Option Int) (c : Option Int) (rs : List RNode),
      extractComments [RNode.mk "t1" (some "") a s c (some rs)] = extractComments rs)
    ∧ (∀ (b : String) (s : Option Int) (c : Option Int), b ≠ "" →
      ∃ r, extractComments [RNode.mk "t1" (some b) (some "") s c none] = [r] ∧
        r.author = "") := by
  constructor
  · intro a s c rs
    simp [extractComments, strTruthy]
  · intro b s c hb
    exact ⟨recordOf (RNode.mk "t1" (some b) (some "") s c none),
      by simp [extractComments, strTruthy, hb],
      by simp [recordOf, RNode.author]⟩

/-- Witness for C9 at concrete inputs: the empty-body node contributes
nothing while its reply is kept, and the empty-string author survives. -/
theorem extractComments_empty_body_author_witness :
    extractComments [RNode.mk "t1" (some "") none none none
        (some [RNode.mk "t1" (some "hey") none none none none])] =
      extractComments [RNode.mk "t1" (some "hey") none none none none] ∧
    ∃ r, extractComments [RNode.mk "t1" (some "hi") (some "") none none none] = [r] ∧
      r.author = "" :=
  ⟨extractComments_empty_body_author.1 none none none _,
   extractComments_empty_body_author.2 "hi" none none (by decide)⟩

/-!
SECTION: Token cache and scrape operation

`getRedditToken` is modelled as a pure state transition: the module-level
pair `(cachedToken, tokenExpiry)` is the state, the current time and the
outcome of the (possible) credential-exchange request are inputs, and the
number of credential exchanges performed by the call (0 or 1) is returned
alongside the result so that "no network activity" is a provable fact.
-/

/-- The module-level token cache `(cachedToken, tokenExpiry)` of index.js;
`tokenExpiry` is in milliseconds and starts at 0. -/
structure TokenState where
  cachedToken : Option String
  tokenExpiry : Int
deriving DecidableEq, Repr

/-- The JSON body returned by the credential-exchange endpoint:
`access_token` (possibly absent) and `expires_in` in seconds. -/
structure TokenResp where
  access_token : Option String
  expires_in : Int
deriving DecidableEq, Repr

/-- `getRedditToken` from index.js: fail when the client id/secret are not
configured; return the cached token when it is truthy and the current time
is before the stored expiry minus the 60 s buffer; otherwise perform one
credential exchange (`net` is its outcome — a thrown error or a response
body) and cache a truthy returned token with expiry `now + expires_in * 1000`.
Returns (result, new state, number of exchange requests performed). -/
def getRedditToken (id secret : Option String) (now : Int)
    (net : Except Unit TokenResp) (st : TokenState) :
    Option String × TokenState × Nat :=
  if !strTruthy id || !strTruthy secret then (none, st, 0)
  else if strTruthy st.cachedToken && decide (now < st.tokenExpiry - 60000) then
    (st.cachedToken, st, 0)
  else
    match net with
    | .error _ => (none, st, 1)
    | .ok d =>
      if strTruthy d.access_token then
        (d.access_token, ⟨d.access_token, now + d.expires_in * 1000⟩, 1)
      else (none, st, 1)

/-- Run a sequence of `getRedditToken` calls (each with its own time and
network outcome) from a starting cache state, with fixed credentials. -/
def runToken (id secret : Option String) :
    List (Int × Except Unit TokenResp) → TokenState → TokenState
  | [], st => st
  | (now, net) :: rest, st =>
    runToken id secret rest (getRedditToken id secret now net st).2.1

/-- A cache state that can actually occur in the process: reachable from
the initial state `(null, 0)` by some sequence of calls. -/
def TokenReachable (id secret : Option String) (st : TokenState) : Prop :=
  ∃ calls, runToken id secret calls ⟨none, 0⟩ = st

/-- Invariant of reachable cache states: a cached token is only ever stored
by a successful exchange, so it is nonempty and the credentials are
configured. -/
def TokenInv (id secret : Option String) (st : TokenState) : Prop :=
  ∀ t, st.cachedToken = some t →
    t ≠ "" ∧ strTruthy id = true ∧ strTruthy secret = true

theorem tokenInv_step (id secret : Option String) (now : Int)
    (net : Except Unit TokenResp) (st : TokenState) (h : TokenInv id secret st) :
    TokenInv id secret (getRedditToken id secret now net st).2.1 := by
  by_cases henv : (!strTruthy id || !strTruthy secret) = true
  · intro t ht
    simp only [getRedditToken, if_pos henv] at ht
    exact h t ht
  · have henv' := henv
    rw [Bool.not_eq_true, Bool.or_eq_false_iff] at henv
    obtain ⟨h1, h2⟩ := henv
    rw [Bool.not_eq_false'] at h1
    rw [Bool.not_eq_false'] at h2
    by_cases hc : (strTruthy st.cachedToken && decide (now < st.tokenExpiry - 60000)) = true
    · intro t ht
      simp only [getRedditToken, if_neg henv', if_pos hc] at ht
      exact h t ht
    · cases net with
      | error e =>
        intro t ht
        simp only [getRedditToken, if_neg henv', if_neg hc] at ht
        exact h t ht
      | ok d =>
        by_cases ha : strTruthy d.access_token = true
        · intro t ht
          simp only [getRedditToken, if_neg henv', if_neg hc, if_pos ha] at ht
          cases hd : d.access_token with
          | none => rw [hd] at ha; simp [strTruthy] at ha
          | some tok =>
            rw [hd] at ht ha
            simp only [strTruthy, bne_iff_ne, ne_eq] at ha
            have htt : tok = t := Option.some.inj ht
            subst htt
            exact ⟨ha, h1, h2⟩
        · intro t ht
          simp only [getRedditToken, if_neg henv', if_neg hc, if_neg ha] at ht
          exact h t ht

theorem tokenInv_run (id secret : Option String)
    (calls : List (Int × Except Unit TokenResp)) :
    ∀ st : TokenState, TokenInv id secret st →
      TokenInv id secret (runToken id secret calls st) := by
  induction calls with
  | nil => intro st h; simpa [runToken] using h
  | cons p rest ih =>
    intro st h
    obtain ⟨now, net⟩ := p
    rw [runToken]
    exact ih _ (tokenInv_step id secret now net st h)

theorem tokenInv_of_reachable (id secret : Option String) (st : TokenState)
    (h : TokenReachable id secret st) : TokenInv id secret st := by
  obtain ⟨calls, hc⟩ := h
  have : TokenInv id secret (⟨none, 0⟩ : TokenState) := by
    intro t ht
    simp at ht
  rw [← hc]
  exact tokenInv_run id secret calls _ this

/-- C3: on any reachable cache state, if a cached token exists and the
current time is before its stored expiry minus the 60-second buffer, the
call returns that cached token with no credential exchange; two such calls
in the window return the identical token string (and the state is
unchanged); and, with credentials configured, a call at or after the stored
expiry performs exactly one credential exchange. -/
theorem getRedditToken_cache_behavior :
    (∀ (id secret : Option String) (st : TokenState) (now : Int)
        (net : Except Unit TokenResp) (t : String),
      TokenReachable id secret st →
      st.cachedToken = some t → now < st.tokenExpiry - 60000 →
      getRedditToken id secret now net st = (some t, st, 0))
    ∧ (∀ (id secret : Option String) (st : TokenState) (now₁ now₂ : Int)
        (net₁ net₂ : Except Unit TokenResp) (t : String),
      TokenReachable id secret st →
      st.cachedToken = some t →
      now₁ < st.tokenExpiry - 60000 → now₂ < st.tokenExpiry - 60000 →
      (getRedditToken id secret now₁ net₁ st).1 = some t ∧
      (getRedditToken id secret now₂ net₂
        (getRedditToken id secret now₁ net₁ st).2.1).1 = some t ∧
      (getRedditToken id secret now₁ net₁ st).2.2 = 0 ∧
      (getRedditToken id secret now₂ net₂
        (getRedditToken id secret now₁ net₁ st).2.1).2.2 = 0)
    ∧ (∀ (id secret : Option String) (st : TokenState) (now : Int)
        (net : Except Unit TokenResp),
      strTruthy id = true → strTruthy secret = true →
      st.tokenExpiry ≤ now →
      (getRedditToken id secret now net st).2.2 = 1) := by
  have part1 : ∀ (id secret : Option String) (st : TokenState) (now : Int)
      (net : Except Unit TokenResp) (t : String),
      TokenReachable id secret st →
      st.cachedToken = some t → now < st.tokenExpiry - 60000 →
      getRedditToken id secret now net st = (some t, st, 0) := by
    intro id secret st now net t hr hct hnow
    obtain ⟨hne, h1, h2⟩ := tokenInv_of_reachable id secret st hr t hct
    have henv : (!strTruthy id || !strTruthy secret) = false := by
      rw [h1, h2]
      rfl
    have hcache : (strTruthy (some t) &&
        decide (now < st.tokenExpiry - 60000)) = true := by
      simp [strTruthy, hne, hnow]
    unfold getRedditToken
    rw [henv]
    simp only [Bool.false_eq_true, if_false, hct, hcache, if_true]
  refine ⟨part1, ?_, ?_⟩
  · intro id secret st now₁ now₂ net₁ net₂ t hr hct h1 h2
    have e1 := part1 id secret st now₁ net₁ t hr hct h1
    have e2 := part1 id secret st now₂ net₂ t hr hct h2
    rw [e1]
    exact ⟨rfl, by rw [e2], rfl, by rw [e2]⟩
  · intro id secret st now net h1 h2 hexp
    have henv : (!strTruthy id || !strTruthy secret) = false := by
      rw [h1, h2]
      rfl
    have hcache : (strTruthy st.cachedToken &&
        decide (now < st.tokenExpiry - 60000)) = false := by
      have : decide (now < st.tokenExpiry - 60000) = false := by
        rw [decide_eq_false_iff_not]
        omega
      rw [this]
      simp
    unfold getRedditToken
    rw [henv]
    simp only [Bool.false_eq_true, if_false, hcache]
    cases net with
    | error e => rfl
    | ok d =>
      by_cases ha : strTruthy d.access_token = true
      · simp [ha]
      · simp [ha]

/-- Witness for C3 at concrete inputs: the state holding token "tok" with
expiry 3 600 000 ms is reachable by one successful exchange at time 0; a
call at time 100 returns the cached token with no exchange, and a call at
time 4 000 000 (past expiry) performs exactly one exchange. -/
theorem getRedditToken_cache_behavior_witness :
    getRedditToken (some "cid") (some "sec") 100 (Except.error ())
        ⟨some "tok", 3600000⟩ = (some "tok", ⟨some "tok", 3600000⟩, 0) ∧
    (getRedditToken (some "cid") (some "sec") 4000000
        (Except.ok ⟨some "t2", 3600⟩) ⟨some "tok", 3600000⟩).2.2 = 1 :=
  ⟨getRedditToken_cache_behavior.1 (some "cid") (some "sec") ⟨some "tok", 3600000⟩
      100 (Except.error ()) "tok"
      ⟨[(0, Except.ok ⟨some "tok", 3600⟩)], by decide⟩ rfl (by decide),
   getRedditToken_cache_behavior.2.2 (some "cid") (some "sec") ⟨some "tok", 3600000⟩
      4000000 (Except.ok ⟨some "t2", 3600⟩) rfl rfl (by decide)⟩

/-- The post part of the raw document:
`json[0]?.data?.children?.[0]?.data` fields read by the handler. -/
structure PostData where
  title : Option String
  selftext : Option String

/-- The parsed upstream JSON document: the optional post data and the
optional comment-listing children `json[1]?.data?.children`. -/
structure RawDoc where
  post : Option PostData
  commentChildren : Option (List RNode)

/-- The response assembled on success: `{ title, body, comments }`. -/
structure ThreadResult where
  title : String
  body : String
  comments : List CommentRecord

/-- Outcome of one `/api/scrape` request: an HTTP error status with a
message, or a successful `ThreadResult`. -/
inductive ScrapeResult : Type where
  | error (status : Nat) (message : String) : ScrapeResult
  | success (result : ThreadResult) : ScrapeResult

/-- The upstream fetch response: HTTP status, raw text (only logged), and
the parsed document used on success. -/
structure FetchResp where
  status : Nat
  bodyText : String
  doc : RawDoc

/-- `response.ok` of the fetch API: status in the range 200-299. -/
def respOk (status : Nat) : Bool := decide (200 ≤ status) && decide (status < 300)

/-- Success-path assembly: `title`/`selftext` default to `""` through the
optional chains, and the comment children (defaulting to `[]`) are
flattened. -/
def buildResult (d : RawDoc) : ThreadResult :=
  { title := match d.post with
      | some p => p.title.getD ""
      | none => ""
    body := match d.post with
      | some p => p.selftext.getD ""
      | none => ""
    comments := extractComments (d.commentChildren.getD []) }

/-- The index.js `POST /api/scrape` handler (credentialed mode): check the
URL, resolve it, obtain a token from the cache (failing with a 500 when
none is obtainable, before any upstream request), then fetch; a non-ok
upstream status is propagated as-is without parsing the body as the
document.  Returns (result, new token-cache state, number of upstream
thread requests issued). -/
def scrapeAuth (id secret : Option String) (now : Int)
    (net : Except Unit TokenResp) (st : TokenState)
    (url : Option String) (resp : FetchResp) :
    ScrapeResult × TokenState × Nat :=
  match url with
  | none => (.error 400 "URL is required", st, 0)
  | some u =>
    if u = "" then (.error 400 "URL is required", st, 0)
    else
      match toRedditJsonUrl u with
      | none => (.error 400 "Invalid Reddit URL format", st, 0)
      | some _ =>
        match getRedditToken id secret now net st with
        | (none, st1, _) =>
          (.error 500 "Could not authenticate with Reddit. Check API credentials.",
           st1, 0)
        | (some _, st1, _) =>
          if respOk resp.status then (.success (buildResult resp.doc), st1, 1)
          else
            (.error resp.status ("Reddit API returned status " ++ toString resp.status),
             st1, 1)

/-- The `POST /api/scrape` handler of the public-JSON variants (part_000):
check the URL, fetch the normalised endpoint (the resolver is total here),
and propagate a non-ok upstream status as-is.  Returns (result, number of
upstream requests issued). -/
def scrapePublic (url : Option String) (resp : FetchResp) : ScrapeResult × Nat :=
  match url with
  | none => (.error 400 "URL is required", 0)
  | some u =>
    if u = "" then (.error 400 "URL is required", 0)
    else
      if respOk resp.status then (.success (buildResult resp.doc), 1)
      else (.error resp.status ("Reddit returned status " ++ toString resp.status), 1)

/-- C4: whenever the upstream response has a non-success HTTP status, the
scrape operation returns an error carrying exactly that status code — for
every possible parsed document and body text, so the body is never parsed
as the document and no partial `ThreadResult` is produced (the error
constructor carries no thread data).  Holds for the credentialed handler
and for the public-variant handler. -/
theorem scrape_upstream_error :
    (∀ (id secret : Option String) (now : Int) (net : Except Unit TokenResp)
        (st : TokenState) (u : String) (resp : FetchResp) (j t : String),
      u ≠ "" → toRedditJsonUrl u = some j →
      (getRedditToken id secret now net st).1 = some t →
      respOk resp.status = false →
      scrapeAuth id secret now net st (some u) resp =
        (.error resp.status ("Reddit API returned status " ++ toString resp.status),
         (getRedditToken id secret now net st).2.1, 1))
    ∧ (∀ (u : String) (resp : FetchResp),
      u ≠ "" → respOk resp.status = false →
      scrapePublic (some u) resp =
        (.error resp.status ("Reddit returned status " ++ toString resp.status), 1)) := by
  constructor
  · intro id secret now net st u resp j t hu hj ht hresp
    rcases hg : getRedditToken id secret now net st with ⟨tok, st1, nc⟩
    rw [hg] at ht
    simp only at ht
    subst ht
    simp only [scrapeAuth, if_neg hu, hj, hg, hresp, Bool.false_eq_true, if_false]
  · intro u resp hu hresp
    simp only [scrapePublic, if_neg hu, hresp, Bool.false_eq_true, if_false]

/-- Witness for C4 at concrete inputs: a 403 upstream response yields a 403
error from both handlers. -/
theorem scrape_upstream_error_witness :
    scrapeAuth (some "cid") (some "sec") 100 (Except.error ()) ⟨some "tok", 3600000⟩
        (some "/comments/abc") ⟨403, "Forbidden", ⟨none, none⟩⟩ =
      (.error 403 ("Reddit API returned status " ++ toString 403),
       ⟨some "tok", 3600000⟩, 1) ∧
    scrapePublic (some "/comments/abc") ⟨403, "Forbidden", ⟨none, none⟩⟩ =
      (.error 403 ("Reddit returned status " ++ toString 403), 1) :=
  ⟨scrape_upstream_error.1 (some "cid") (some "sec") 100 (Except.error ())
      ⟨some "tok", 3600000⟩ "/comments/abc" ⟨403, "Forbidden", ⟨none, none⟩⟩
      "https://oauth.reddit.com/comments/abc" "tok"
      (by decide) rfl rfl rfl,
   scrape_upstream_error.2 "/comments/abc" ⟨403, "Forbidden", ⟨none, none⟩⟩
      (by decide) rfl⟩

/-- C8: in credentialed mode the handler consults the token cache before
any upstream request; when no token is obtainable it fails with the
authentication error (HTTP 500) and issues zero upstream thread requests —
there is no unauthenticated fallback request. -/
theorem scrape_auth_error_no_fetch :
    ∀ (id secret : Option String) (now : Int) (net : Except Unit TokenResp)
      (st : TokenState) (u : String) (resp : FetchResp) (j : String),
      u ≠ "" → toRedditJsonUrl u = some j →
      (getRedditToken id secret now net st).1 = none →
      scrapeAuth id secret now net st (some u) resp =
        (.error 500 "Could not authenticate with Reddit. Check API credentials.",
         (getRedditToken id secret now net st).2.1, 0) := by
  intro id secret now net st u resp j hu hj ht
  rcases hg : getRedditToken id secret now net st with ⟨tok, st1, nc⟩
  rw [hg] at ht
  simp only at ht
  subst ht
  simp only [scrapeAuth, if_neg hu, hj, hg]

/-- Witness for C8 at concrete inputs: with no client credentials
configured, no token is obtainable and the scrape fails with the 500
authentication error without issuing the upstream request. -/
theorem scrape_auth_error_no_fetch_witness :
    scrapeAuth none none 100 (Except.ok ⟨some "t", 3600⟩) ⟨none, 0⟩
        (some "/comments/abc") ⟨200, "", ⟨none, none⟩⟩ =
      (.error 500 "Could not authenticate with Reddit. Check API credentials.",
       ⟨none, 0⟩, 0) :=
  scrape_auth_error_no_fetch none none 100 (Except.ok ⟨some "t", 3600⟩) ⟨none, 0⟩
    "/comments/abc" ⟨200, "", ⟨none, none⟩⟩ "https://oauth.reddit.com/comments/abc"
    (by decide) rfl rfl

/-!
SECTION: URL resolver claims

Lemmas relating the two index.js regexes: a successful strict match
(`/r/{sub}/comments/{id}`) always contains a successful loose match
(`/comments/{id}`) at a later start position, so the resolver fails
exactly when the loose pattern matches nowhere.
-/

theorem stripCI_sufOf (pat : List Char) :
    ∀ s r : List Char, stripCI pat s = some r → ∃ t, t ++ r = s := by
  induction pat with
  | nil =>
    intro s r h
    simp only [stripCI, Option.some.injEq] at h
    exact ⟨[], by rw [h]; rfl⟩
  | cons p ps ih =>
    intro s r h
    cases s with
    | nil => simp [stripCI] at h
    | cons c cs =>
      rw [stripCI] at h
      by_cases hc : ciEq p c = true
      · rw [if_pos hc] at h
        obtain ⟨t, ht⟩ := ih cs r h
        exact ⟨c :: t, by rw [List.cons_append, ht]⟩
      · rw [if_neg hc] at h
        exact absurd h (by simp)

theorem dropWhile_sufOf (p : Char → Bool) :
    ∀ l : List Char, ∃ t, t ++ l.dropWhile p = l := by
  intro l
  induction l with
  | nil => exact ⟨[], rfl⟩
  | cons c cs ih =>
    by_cases hc : p c = true
    · obtain ⟨t, ht⟩ := ih
      exact ⟨c :: t, by rw [List.dropWhile_cons_of_pos hc, List.cons_append, ht]⟩
    · exact ⟨[], by rw [List.dropWhile_cons_of_neg hc]; rfl⟩

theorem matchRAt_to_matchCAt (s a b : List Char) (h : matchRAt s = some (a, b)) :
    ∃ s2, (∃ t, t ++ s2 = s) ∧ matchCAt s2 = some b := by
  cases h1 : stripCI rPat s with
  | none => simp [matchRAt, h1] at h
  | some s1 =>
    by_cases he : (s1.takeWhile notSlash).isEmpty = true
    · simp [matchRAt, h1, he] at h
    · cases h2 : stripCI commentsPat (s1.dropWhile notSlash) with
      | none => simp [matchRAt, h1, he, h2] at h
      | some s2' =>
        by_cases he2 : (s2'.takeWhile notSlash).isEmpty = true
        · simp [matchRAt, h1, he, h2, he2] at h
        · simp only [matchRAt, h1, he, h2, he2, Bool.false_eq_true, if_false,
            Option.some.injEq, Prod.mk.injEq] at h
          refine ⟨s1.dropWhile notSlash, ?_, ?_⟩
          · obtain ⟨t1, ht1⟩ := stripCI_sufOf rPat s s1 h1
            obtain ⟨t2, ht2⟩ := dropWhile_sufOf notSlash s1
            exact ⟨t1 ++ t2, by rw [List.append_assoc, ht2, ht1]⟩
          · have he2b : ¬ b.isEmpty = true := by rw [← h.2]; exact he2
            rw [matchCAt, h2]
            simp only [h.2, he2b, Bool.false_eq_true, if_false]

theorem firstSome_some_sufOf {α : Type} (f : List Char → Option α) :
    ∀ (l : List Char) (x : α), firstSome f l = some x →
      ∃ s, (∃ t, t ++ s = l) ∧ f s = some x := by
  intro l
  induction l with
  | nil =>
    intro x h
    rw [firstSome] at h
    exact ⟨[], ⟨[], rfl⟩, h⟩
  | cons c cs ih =>
    intro x h
    rw [firstSome] at h
    cases hf : f (c :: cs) with
    | some r =>
      rw [hf] at h
      simp only [Option.some.injEq] at h
      exact ⟨c :: cs, ⟨[], rfl⟩, by rw [hf, h]⟩
    | none =>
      rw [hf] at h
      obtain ⟨s, ⟨t, ht⟩, hfs⟩ := ih x h
      exact ⟨s, ⟨c :: t, by rw [List.cons_append, ht]⟩, hfs⟩

theorem firstSome_isSome_of_sufOf {α : Type} (f : List Char → Option α)
    (s : List Char) (x : α) (hf : f s = some x) :
    ∀ t : List Char, (firstSome f (t ++ s)).isSome = true := by
  intro t
  induction t with
  | nil =>
    cases s with
    | nil => simp [firstSome, hf]
    | cons c cs => simp only [List.nil_append, firstSome, hf, Option.isSome_some]
  | cons c t ih =>
    rw [List.cons_append, firstSome]
    cases hf2 : f (c :: (t ++ s)) with
    | some r => simp
    | none => simpa using ih

/-- C5: the index.js resolver either produces a canonical endpoint URL or
returns null, and it returns null exactly when the loose thread-identifier
pattern `/comments/{id}` matches nowhere in the input (the strict
`/r/{sub}/comments/{id}` pattern only ever matches where the loose one
also does). -/
theorem toRedditJsonUrl_none_iff (u : String) :
    toRedditJsonUrl u = none ↔ firstSome matchCAt u.toList = none := by
  unfold toRedditJsonUrl
  cases hR : firstSome matchRAt u.toList with
  | some p =>
    obtain ⟨a, b⟩ := p
    simp only [reduceCtorEq, false_iff]
    intro hC
    obtain ⟨s, ⟨t, ht⟩, hfs⟩ := firstSome_some_sufOf matchRAt u.toList (a, b) hR
    obtain ⟨s2, ⟨t2, ht2⟩, hC2⟩ := matchRAt_to_matchCAt s a b hfs
    have := firstSome_isSome_of_sufOf matchCAt s2 b hC2 (t ++ t2)
    rw [List.append_assoc, ht2, ht] at this
    rw [hC] at this
    simp at this
  | none =>
    cases hC : firstSome matchCAt u.toList with
    | some id => simp
    | none => simp

/-!
SECTION: Fallback path: the `.json` suffix

The fallback normalisation always produces a URL ending in `.json` and
never duplicates the suffix; the P1 hostname rewrite cannot destroy the
suffix because no nonempty suffix of an alternate hostname is a prefix of
`".json"`.
-/

theorem beginsWith_iff (p : List Char) :
    ∀ l : List Char, beginsWith p l = true ↔ ∃ t, p ++ t = l := by
  induction p with
  | nil =>
    intro l
    constructor
    · intro _; exact ⟨l, rfl⟩
    · intro _; rfl
  | cons x p ih =>
    intro l
    cases l with
    | nil => simp [beginsWith]
    | cons c cs =>
      rw [beginsWith, Bool.and_eq_true, beq_iff_eq, ih cs]
      constructor
      · rintro ⟨hx, t, ht⟩
        exact ⟨t, by rw [List.cons_append, hx, ht]⟩
      · rintro ⟨t, ht⟩
        rw [List.cons_append] at ht
        injection ht with h1 h2
        exact ⟨h1, t, h2⟩

theorem endsWith_iff (suf l : List Char) :
    endsWith suf l = true ↔ ∃ t, t ++ suf = l := by
  rw [endsWith, beginsWith_iff]
  constructor
  · rintro ⟨t, ht⟩
    refine ⟨t.reverse, ?_⟩
    have h2 : l.reverse.reverse = (suf.reverse ++ t).reverse := by rw [ht]
    rw [List.reverse_reverse, List.reverse_append, List.reverse_reverse] at h2
    exact h2.symm
  · rintro ⟨t, ht⟩
    exact ⟨t.reverse, by rw [← ht, List.reverse_append]⟩

theorem no_json_overlap (pat : List Char)
    (hpat : ∀ k, k < pat.length → beginsWith (pat.drop k) jsonSuf = false)
    (t a' rest : List Char) (h1 : pat = t ++ a') (h2 : jsonSuf = a' ++ rest) :
    a' = [] := by
  by_contra hne
  have hlen : t.length < pat.length := by
    rw [h1, List.length_append]
    have := List.length_pos.mpr hne
    omega
  have hdrop : pat.drop t.length = a' := by rw [h1, List.drop_left]
  have hfalse := hpat t.length hlen
  rw [hdrop] at hfalse
  have htrue : beginsWith a' jsonSuf = true := (beginsWith_iff a' jsonSuf).mpr ⟨rest, h2.symm⟩
  rw [htrue] at hfalse
  exact absurd hfalse (by simp)

theorem hostBranch_keeps_json (pat t0 : List Char)
    (hpat : ∀ k, k < pat.length → beginsWith (pat.drop k) jsonSuf = false)
    (h : ∃ t, t ++ jsonSuf = pat ++ t0) :
    ∃ t, t ++ jsonSuf = wwwHost ++ t0 := by
  obtain ⟨t, ht⟩ := h
  rcases List.append_eq_append_iff.mp ht with ⟨a', ha1, ha2⟩ | ⟨c', _, hc2⟩
  · have ha0 : a' = [] := no_json_overlap pat hpat t a' t0 ha1 ha2
    subst ha0
    rw [List.nil_append] at ha2
    exact ⟨wwwHost, by rw [ha2]⟩
  · exact ⟨wwwHost ++ c', by rw [List.append_assoc, ← hc2]⟩

theorem replaceFirstHost_keeps_json :
    ∀ l : List Char, (∃ t, t ++ jsonSuf = l) →
      ∃ t, t ++ jsonSuf = replaceFirstHost l := by
  intro l
  induction l with
  | nil => intro h; exact h
  | cons c cs ih =>
    intro h
    rw [replaceFirstHost]
    by_cases h1 : beginsWith oldHost (c :: cs) = true
    · rw [if_pos h1]
      obtain ⟨t0, ht0⟩ := (beginsWith_iff oldHost (c :: cs)).mp h1
      have hdrop : (c :: cs).drop oldHost.length = t0 := by rw [← ht0, List.drop_left]
      rw [hdrop]
      rw [← ht0] at h
      exact hostBranch_keeps_json oldHost t0 (by decide) h
    · rw [if_neg h1]
      by_cases h2 : beginsWith mobileHost (c :: cs) = true
      · rw [if_pos h2]
        obtain ⟨t0, ht0⟩ := (beginsWith_iff mobileHost (c :: cs)).mp h2
        have hdrop : (c :: cs).drop mobileHost.length = t0 := by
          rw [← ht0, List.drop_left]
        rw [hdrop]
        rw [← ht0] at h
        exact hostBranch_keeps_json mobileHost t0 (by decide) h
      · rw [if_neg h2]
        by_cases h3 : beginsWith payHost (c :: cs) = true
        · rw [if_pos h3]
          obtain ⟨t0, ht0⟩ := (beginsWith_iff payHost (c :: cs)).mp h3
          have hdrop : (c :: cs).drop payHost.length = t0 := by
            rw [← ht0, List.drop_left]
          rw [hdrop]
          rw [← ht0] at h
          exact hostBranch_keeps_json payHost t0 (by decide) h
        · rw [if_neg h3]
          obtain ⟨t, ht⟩ := h
          cases t with
          | nil =>
            rw [List.nil_append] at ht
            have h4 : ('.' :: 'j' :: 's' :: 'o' :: 'n' :: ([] : List Char)) = c :: cs := ht
            injection h4 with hx hrest
            subst hx
            subst hrest
            exact ⟨[], by decide⟩
          | cons x t' =>
            rw [List.cons_append] at ht
            injection ht with hx hrest
            subst hx
            obtain ⟨t'', ht''⟩ := ih ⟨t', hrest⟩
            exact ⟨x :: t'', by rw [List.cons_append, ht'']⟩

theorem fallbackJson_sufOf (l : List Char) : ∃ t, t ++ jsonSuf = fallbackJson l := by
  unfold fallbackJson
  by_cases hc : endsWith jsonSuf (cleanUrl l) = true
  · rw [if_pos hc]
    exact (endsWith_iff jsonSuf (cleanUrl l)).mp hc
  · rw [if_neg hc]
    exact ⟨cleanUrl l, rfl⟩

/-- C6: every output of the fallback normalisation ends with the `.json`
suffix — both in the fallback-only variant and in the P1 variant with the
hostname rewrite — and when the cleaned input already ends with `.json`
nothing is appended: the output is the cleaned string itself (respectively
its hostname rewrite). -/
theorem fallback_json_suffix :
    (∀ u : String, endsWith jsonSuf (toRedditJsonUrlP0F u).toList = true)
    ∧ (∀ u : String, endsWith jsonSuf (toRedditJsonUrlP1 u).toList = true)
    ∧ (∀ u : String, endsWith jsonSuf (cleanUrl u.toList) = true →
        toRedditJsonUrlP0F u = String.mk (cleanUrl u.toList) ∧
        toRedditJsonUrlP1 u = String.mk (replaceFirstHost (cleanUrl u.toList))) := by
  refine ⟨?_, ?_, ?_⟩
  · intro u
    show endsWith jsonSuf (fallbackJson u.toList) = true
    exact (endsWith_iff jsonSuf (fallbackJson u.toList)).mpr (fallbackJson_sufOf u.toList)
  · intro u
    show endsWith jsonSuf (replaceFirstHost (fallbackJson u.toList)) = true
    exact (endsWith_iff jsonSuf _).mpr
      (replaceFirstHost_keeps_json (fallbackJson u.toList) (fallbackJson_sufOf u.toList))
  · intro u hc
    constructor
    · show String.mk (fallbackJson u.toList) = String.mk (cleanUrl u.toList)
      rw [fallbackJson, if_pos hc]
    · show String.mk (replaceFirstHost (fallbackJson u.toList)) =
        String.mk (replaceFirstHost (cleanUrl u.toList))
      rw [fallbackJson, if_pos hc]

/-- Witness for C6 at a concrete input: an input already ending in `.json`
is returned unchanged (modulo the hostname rewrite) by both fallback
variants. -/
theorem fallback_json_suffix_witness :
    toRedditJsonUrlP0F "https://a.json" = String.mk (cleanUrl "https://a.json".toList) ∧
    toRedditJsonUrlP1 "https://a.json" =
      String.mk (replaceFirstHost (cleanUrl "https://a.json".toList)) :=
  fallback_json_suffix.2.2 "https://a.json" (by decide)

/-!
SECTION: Resolver idempotence

The index.js and P0 resolvers are idempotent; the P1 resolver is not
(its hostname rewrite only replaces the first occurrence, so a second
application can rewrite a second occurrence).  The lemmas below evaluate
the scanners on the canonical outputs.
-/

theorem takeWhile_append_all (p : Char → Bool) :
    ∀ (a : List Char) (b0 : Char) (bs : List Char),
      (∀ c ∈ a, p c = true) → p b0 = false →
      ((a ++ b0 :: bs).takeWhile p = a ∧ (a ++ b0 :: bs).dropWhile p = b0 :: bs) := by
  intro a
  induction a with
  | nil =>
    intro b0 bs _ hb
    constructor
    · rw [List.nil_append, List.takeWhile_cons, hb]
      rfl
    · rw [List.nil_append, List.dropWhile_cons, hb]
      rfl
  | cons x a ih =>
    intro b0 bs ha hb
    have hx : p x = true := ha x (List.mem_cons_self x a)
    have ha' : ∀ c ∈ a, p c = true := fun c hc => ha c (List.mem_cons_of_mem x hc)
    obtain ⟨ih1, ih2⟩ := ih b0 bs ha' hb
    constructor
    · rw [List.cons_append, List.takeWhile_cons, hx]
      simp only [if_true, ih1]
    · rw [List.cons_append, List.dropWhile_cons, hx]
      simp only [if_true, ih2]

theorem takeWhile_all (p : Char → Bool) :
    ∀ a : List Char, (∀ c ∈ a, p c = true) → a.takeWhile p = a := by
  intro a
  induction a with
  | nil => intro _; rfl
  | cons x a ih =>
    intro ha
    rw [List.takeWhile_cons, ha x (List.mem_cons_self x a)]
    simp only [if_true, ih (fun c hc => ha c (List.mem_cons_of_mem x hc))]

theorem ciEq_slash (c : Char) : ciEq '/' c = true ↔ c = '/' := by
  constructor
  · intro h
    rw [ciEq, Bool.or_eq_true, beq_iff_eq] at h
    rcases h with h | h
    · exact h
    · rw [Bool.and_eq_true, Bool.and_eq_true] at h
      obtain ⟨⟨h1, h2⟩, h3⟩ := h
      simp only [decide_eq_true_eq] at h1 h2 h3
      have h4 : ('/').toNat = 47 := rfl
      omega
  · rintro rfl
    rfl

theorem matchRAt_cons_ne (c : Char) (l : List Char) (h : c ≠ '/') :
    matchRAt (c :: l) = none := by
  have hc : ciEq '/' c = false := by
    rw [Bool.eq_false_iff]
    intro hh
    exact h ((ciEq_slash c).mp hh)
  simp [matchRAt, rPat, stripCI, hc]

theorem matchRAt_slash_noslash (l : List Char) (h : ∀ c ∈ l, c ≠ '/') :
    matchRAt ('/' :: l) = none := by
  cases l with
  | nil => rfl
  | cons c cs =>
    by_cases hc : ciEq 'r' c = true
    · cases cs with
      | nil => simp [matchRAt, rPat, stripCI, hc]
      | cons c2 cs2 =>
        have h2 : ciEq '/' c2 = false := by
          rw [Bool.eq_false_iff]
          intro hh
          exact h c2 (by simp) ((ciEq_slash c2).mp hh)
        simp [matchRAt, rPat, stripCI, hc, h2]
    · simp [matchRAt, rPat, stripCI, hc]

theorem firstSome_matchRAt_noslash (l : List Char) (h : ∀ c ∈ l, c ≠ '/') :
    firstSome matchRAt l = none := by
  induction l with
  | nil => rfl
  | cons c cs ih =>
    have hm : matchRAt (c :: cs) = none :=
      matchRAt_cons_ne c cs (h c (List.mem_cons_self c cs))
    rw [firstSome, hm]
    exact ih (fun x hx => h x (List.mem_cons_of_mem c hx))

theorem notSlash_of_ne (c : Char) (h : c ≠ '/') : notSlash c = true := by
  simp only [notSlash, bne_iff_ne, ne_eq]
  exact h

theorem ne_of_notSlash (c : Char) (h : notSlash c = true) : c ≠ '/' := by
  simpa [notSlash, bne_iff_ne] using h

theorem matchRAt_props (s : List Char) (x : List Char × List Char)
    (h : matchRAt s = some x) :
    x.1 ≠ [] ∧ (∀ c ∈ x.1, c ≠ '/') ∧ x.2 ≠ [] ∧ (∀ c ∈ x.2, c ≠ '/') := by
  obtain ⟨a, b⟩ := x
  dsimp only
  cases h1 : stripCI rPat s with
  | none => simp [matchRAt, h1] at h
  | some s1 =>
    by_cases he : (s1.takeWhile notSlash).isEmpty = true
    · simp [matchRAt, h1, he] at h
    · cases h2 : stripCI commentsPat (s1.dropWhile notSlash) with
      | none => simp [matchRAt, h1, he, h2] at h
      | some s2 =>
        by_cases he2 : (s2.takeWhile notSlash).isEmpty = true
        · simp [matchRAt, h1, he, h2, he2] at h
        · simp only [matchRAt, h1, he, h2, he2, Bool.false_eq_true, if_false,
            Option.some.injEq, Prod.mk.injEq] at h
          obtain ⟨ha, hb⟩ := h
          refine ⟨?_, ?_, ?_, ?_⟩
          · rw [← ha]
            exact fun hh => he (by rw [hh]; rfl)
          · intro c hc
            rw [← ha] at hc
            exact ne_of_notSlash c (List.mem_takeWhile_imp hc)
          · rw [← hb]
            exact fun hh => he2 (by rw [hh]; rfl)
          · intro c hc
            rw [← hb] at hc
            exact ne_of_notSlash c (List.mem_takeWhile_imp hc)

theorem matchCAt_props (s : List Char) (x : List Char) (h : matchCAt s = some x) :
    x ≠ [] ∧ ∀ c ∈ x, c ≠ '/' := by
  cases h1 : stripCI commentsPat s with
  | none => simp [matchCAt, h1] at h
  | some s1 =>
    by_cases he : (s1.takeWhile notSlash).isEmpty = true
    · simp [matchCAt, h1, he] at h
    · simp only [matchCAt, h1, he, Bool.false_eq_true, if_false,
        Option.some.injEq] at h
      constructor
      · rw [← h]
        exact fun hh => he (by rw [hh]; rfl)
      · intro c hc
        rw [← h] at hc
        exact ne_of_notSlash c (List.mem_takeWhile_imp hc)

theorem matchC2At_props (s : List Char) (x : List Char) (h : matchC2At s = some x) :
    x ≠ [] ∧ ∀ c ∈ x, isAlnumCI c = true := by
  cases h1 : stripCI commentsPat s with
  | none => simp [matchC2At, h1] at h
  | some s1 =>
    by_cases he : (s1.takeWhile isAlnumCI).isEmpty = true
    · simp [matchC2At, h1, he] at h
    · simp only [matchC2At, h1, he, Bool.false_eq_true, if_false,
        Option.some.injEq] at h
      constructor
      · rw [← h]
        exact fun hh => he (by rw [hh]; rfl)
      · intro c hc
        rw [← h] at hc
        exact List.mem_takeWhile_imp hc

theorem firstSome_matchRAt_canonical (sub id : List Char)
    (hs1 : sub ≠ []) (hs2 : ∀ c ∈ sub, c ≠ '/')
    (hi1 : id ≠ []) (hi2 : ∀ c ∈ id, c ≠ '/') :
    firstSome matchRAt
      ("https://oauth.reddit.com".toList ++
        ('/' :: 'r' :: '/' :: (sub ++ ('/' :: ("comments/".toList ++ id))))) =
      some (sub, id) := by
  have hskip : firstSome matchRAt
      ("https://oauth.reddit.com".toList ++
        ('/' :: 'r' :: '/' :: (sub ++ ('/' :: ("comments/".toList ++ id))))) =
      firstSome matchRAt
        ('/' :: 'r' :: '/' :: (sub ++ ('/' :: ("comments/".toList ++ id)))) := rfl
  rw [hskip]
  have hsA : ∀ c ∈ sub, notSlash c = true := fun c hc => notSlash_of_ne c (hs2 c hc)
  have hiA : ∀ c ∈ id, notSlash c = true := fun c hc => notSlash_of_ne c (hi2 c hc)
  have h1 : stripCI rPat
      ('/' :: 'r' :: '/' :: (sub ++ ('/' :: ("comments/".toList ++ id)))) =
      some (sub ++ ('/' :: ("comments/".toList ++ id))) := rfl
  obtain ⟨h2, h3⟩ :=
    takeWhile_append_all notSlash sub '/' ("comments/".toList ++ id) hsA rfl
  have h4 : stripCI commentsPat ('/' :: ("comments/".toList ++ id)) = some id := rfl
  have h5 : id.takeWhile notSlash = id := takeWhile_all notSlash id hiA
  have hm : matchRAt
      ('/' :: 'r' :: '/' :: (sub ++ ('/' :: ("comments/".toList ++ id)))) =
      some (sub, id) := by
    simp only [matchRAt, h1, h2, h3, h4, h5]
    rw [if_neg (fun hh => hs1 (List.isEmpty_iff.mp hh)),
      if_neg (fun hh => hi1 (List.isEmpty_iff.mp hh))]
  rw [firstSome, hm]

theorem firstSome_matchRAt_comments_none (id : List Char) (hi2 : ∀ c ∈ id, c ≠ '/') :
    firstSome matchRAt ("https://oauth.reddit.com/comments".toList ++ ('/' :: id)) =
      none := by
  have hskip : firstSome matchRAt
      ("https://oauth.reddit.com/comments".toList ++ ('/' :: id)) =
      firstSome matchRAt ('/' :: id) := rfl
  rw [hskip, firstSome, matchRAt_slash_noslash id hi2]
  exact firstSome_matchRAt_noslash id hi2

theorem firstSome_matchCAt_comments (id : List Char)
    (hi1 : id ≠ []) (hi2 : ∀ c ∈ id, c ≠ '/') :
    firstSome matchCAt
      ("https://oauth.reddit.com".toList ++ ('/' :: ("comments/".toList ++ id))) =
      some id := by
  have hskip : firstSome matchCAt
      ("https://oauth.reddit.com".toList ++ ('/' :: ("comments/".toList ++ id))) =
      firstSome matchCAt ('/' :: ("comments/".toList ++ id)) := rfl
  rw [hskip]
  have hiA : ∀ c ∈ id, notSlash c = true := fun c hc => notSlash_of_ne c (hi2 c hc)
  have h4 : stripCI commentsPat ('/' :: ("comments/".toList ++ id)) = some id := rfl
  have h5 : id.takeWhile notSlash = id := takeWhile_all notSlash id hiA
  have hm : matchCAt ('/' :: ("comments/".toList ++ id)) = some id := by
    simp only [matchCAt, h4, h5]
    rw [if_neg (fun hh => hi1 (List.isEmpty_iff.mp hh))]
  rw [firstSome, hm]

theorem toRedditJsonUrl_fixed (u v : String) (h : toRedditJsonUrl u = some v) :
    toRedditJsonUrl v = some v := by
  cases hR : firstSome matchRAt u.toList with
  | some p =>
    obtain ⟨sub, id⟩ := p
    simp only [toRedditJsonUrl, hR, Option.some.injEq] at h
    obtain ⟨ws, _, hws⟩ := firstSome_some_sufOf matchRAt u.toList (sub, id) hR
    obtain ⟨hs1, hs2, hi1, hi2⟩ := matchRAt_props ws (sub, id) hws
    have hv : v.toList =
        "https://oauth.reddit.com".toList ++
          ('/' :: 'r' :: '/' :: (sub ++ ('/' :: ("comments/".toList ++ id)))) := by
      rw [← h]
      show ("https://oauth.reddit.com/r/" ++ String.mk sub ++ "/comments/" ++
        String.mk id).data = _
      rw [String.data_append, String.data_append, String.data_append,
        List.append_assoc, List.append_assoc]
      rfl
    have hR2 : firstSome matchRAt v.toList = some (sub, id) := by
      rw [hv]
      exact firstSome_matchRAt_canonical sub id hs1 hs2 hi1 hi2
    simp only [toRedditJsonUrl, hR2, Option.some.injEq]
    exact h
  | none =>
    cases hC : firstSome matchCAt u.toList with
    | some id =>
      simp only [toRedditJsonUrl, hR, hC, Option.some.injEq] at h
      obtain ⟨ws, _, hws⟩ := firstSome_some_sufOf matchCAt u.toList id hC
      obtain ⟨hi1, hi2⟩ := matchCAt_props ws id hws
      have hv1 : v.toList =
          "https://oauth.reddit.com/comments".toList ++ ('/' :: id) := by
        rw [← h]
        show ("https://oauth.reddit.com/comments/" ++ String.mk id).data = _
        rw [String.data_append]
        rfl
      have hv2 : v.toList =
          "https://oauth.reddit.com".toList ++ ('/' :: ("comments/".toList ++ id)) := by
        rw [← h]
        show ("https://oauth.reddit.com/comments/" ++ String.mk id).data = _
        rw [String.data_append]
        rfl
      have hR2 : firstSome matchRAt v.toList = none := by
        rw [hv1]
        exact firstSome_matchRAt_comments_none id hi2
      have hC2 : firstSome matchCAt v.toList = some id := by
        rw [hv2]
        exact firstSome_matchCAt_comments id hi1 hi2
      simp only [toRedditJsonUrl, hR2, hC2, Option.some.injEq]
      exact h
    | none =>
      have hR2 : firstSome matchRAt u.data = none := hR
      have hC2 : firstSome matchCAt u.data = none := hC
      simp [toRedditJsonUrl, hR2, hC2] at h

theorem stripCI_append_ext (pat : List Char) :
    ∀ s r t : List Char, stripCI pat s = some r →
      stripCI pat (s ++ t) = some (r ++ t) := by
  induction pat with
  | nil =>
    intro s r t h
    simp only [stripCI, Option.some.injEq] at h
    rw [stripCI, h]
  | cons p ps ih =>
    intro s r t h
    cases s with
    | nil => simp [stripCI] at h
    | cons c cs =>
      rw [stripCI] at h
      by_cases hc : ciEq p c = true
      · rw [if_pos hc] at h
        rw [List.cons_append, stripCI, if_pos hc]
        exact ih cs r t h
      · rw [if_neg hc] at h
        exact absurd h (by simp)

theorem takeWhile_nonempty_head (p : Char → Bool) (l : List Char)
    (h : (l.takeWhile p).isEmpty = false) :
    ∃ c l', l = c :: l' ∧ p c = true := by
  cases l with
  | nil => simp [List.takeWhile] at h
  | cons c l' =>
    by_cases hc : p c = true
    · exact ⟨c, l', rfl, hc⟩
    · rw [List.takeWhile_cons, if_neg hc] at h
      simp at h

theorem matchC2At_ext (s a : List Char) (h : matchC2At s = some a) :
    ∀ t : List Char, ∃ a2, matchC2At (s ++ t) = some a2 := by
  intro t
  cases h1 : stripCI commentsPat s with
  | none => simp [matchC2At, h1] at h
  | some s1 =>
    by_cases he : (s1.takeWhile isAlnumCI).isEmpty = true
    · simp [matchC2At, h1, he] at h
    · have h2 : stripCI commentsPat (s ++ t) = some (s1 ++ t) :=
        stripCI_append_ext commentsPat s s1 t h1
      rw [Bool.not_eq_true] at he
      obtain ⟨c, l', hl, hc⟩ := takeWhile_nonempty_head isAlnumCI s1 he
      have he2 : ((s1 ++ t).takeWhile isAlnumCI).isEmpty = false := by
        rw [hl, List.cons_append, List.takeWhile_cons, hc]
        rfl
      refine ⟨(s1 ++ t).takeWhile isAlnumCI, ?_⟩
      simp only [matchC2At, h2, he2, Bool.false_eq_true, if_false]

theorem firstSome_none_all {α : Type} (f : List Char → Option α) :
    ∀ l : List Char, firstSome f l = none →
      ∀ s, (∃ t, t ++ s = l) → f s = none := by
  intro l
  induction l with
  | nil =>
    intro h s hs
    obtain ⟨t, ht⟩ := hs
    have h1 : t = [] ∧ s = [] := by
      constructor
      · cases t with
        | nil => rfl
        | cons x xs => simp at ht
      · cases t with
        | nil => simpa using ht
        | cons x xs => simp at ht
    rw [h1.2]
    rw [firstSome] at h
    exact h
  | cons c cs ih =>
    intro h s hs
    rw [firstSome] at h
    cases hf : f (c :: cs) with
    | some r => rw [hf] at h; simp at h
    | none =>
      rw [hf] at h
      obtain ⟨t, ht⟩ := hs
      cases t with
      | nil =>
        rw [List.nil_append] at ht
        rw [ht]
        exact hf
      | cons x xs =>
        rw [List.cons_append] at ht
        injection ht with h1 h2
        exact ih h s ⟨xs, h2⟩

theorem firstSome_matchC2At_none_of_preOf (k t : List Char)
    (h : firstSome matchC2At (k ++ t) = none) :
    firstSome matchC2At k = none := by
  cases hm : firstSome matchC2At k with
  | none => rfl
  | some a =>
    exfalso
    obtain ⟨s, ⟨t0, ht0⟩, hs⟩ := firstSome_some_sufOf matchC2At k a hm
    obtain ⟨a2, ha2⟩ := matchC2At_ext s a hs t
    have := firstSome_isSome_of_sufOf matchC2At (s ++ t) a2 ha2 t0
    rw [← List.append_assoc, ht0, h] at this
    simp at this

theorem stripCI_append_barrier (pat : List Char)
    (hb : ∀ p ∈ pat, ciEq p '.' = false) :
    ∀ a z r : List Char, stripCI pat (a ++ '.' :: z) = some r →
      ∃ a', stripCI pat a = some a' ∧ r = a' ++ '.' :: z := by
  induction pat with
  | nil =>
    intro a z r h
    simp only [stripCI, Option.some.injEq] at h
    exact ⟨a, rfl, h.symm⟩
  | cons p ps ih =>
    intro a z r h
    cases a with
    | nil =>
      rw [List.nil_append, stripCI] at h
      rw [hb p (List.mem_cons_self p ps)] at h
      simp at h
    | cons c cs =>
      rw [List.cons_append, stripCI] at h
      by_cases hc : ciEq p c = true
      · rw [if_pos hc] at h
        obtain ⟨a', h1, h2⟩ := ih (fun q hq => hb q (List.mem_cons_of_mem p hq)) cs z r h
        exact ⟨a', by rw [stripCI, if_pos hc]; exact h1, h2⟩
      · rw [if_neg hc] at h
        exact absurd h (by simp)

theorem matchC2At_barrier (a z x : List Char)
    (h : matchC2At (a ++ '.' :: z) = some x) :
    ∃ y, matchC2At a = some y := by
  cases h1 : stripCI commentsPat (a ++ '.' :: z) with
  | none => simp [matchC2At, h1] at h
  | some r =>
    obtain ⟨a', h2, h3⟩ := stripCI_append_barrier commentsPat (by decide) a z r h1
    by_cases he : (r.takeWhile isAlnumCI).isEmpty = true
    · simp [matchC2At, h1, he] at h
    · rw [Bool.not_eq_true] at he
      obtain ⟨c, l', hl, hc⟩ := takeWhile_nonempty_head isAlnumCI r he
      cases ha' : a' with
      | nil =>
        rw [ha'] at h3
        rw [List.nil_append] at h3
        rw [h3] at hl
        injection hl with hx _
        rw [← hx] at hc
        exact absurd hc (by decide)
      | cons c0 a2 =>
        have he2 : ((c0 :: a2).takeWhile isAlnumCI).isEmpty = false := by
          have hc0 : isAlnumCI c0 = true := by
            rw [ha'] at h3
            rw [List.cons_append] at h3
            rw [h3] at hl
            injection hl with hx _
            rw [← hx] at hc
            exact hc
          rw [List.takeWhile_cons, hc0]
          rfl
        refine ⟨(c0 :: a2).takeWhile isAlnumCI, ?_⟩
        rw [ha'] at h2
        simp only [matchC2At, h2, he2, Bool.false_eq_true, if_false]

theorem firstSome_append_none {α : Type} (f : List Char → Option α) :
    ∀ a b : List Char,
      (∀ a', (∃ t, t ++ a' = a) → f (a' ++ b) = none) →
      firstSome f b = none →
      firstSome f (a ++ b) = none := by
  intro a
  induction a with
  | nil =>
    intro b _ hb
    rw [List.nil_append]
    exact hb
  | cons c cs ih =>
    intro b ha hb
    rw [List.cons_append, firstSome]
    have h0 : f ((c :: cs) ++ b) = none := ha (c :: cs) ⟨[], rfl⟩
    rw [List.cons_append] at h0
    rw [h0]
    exact ih b (fun a' ⟨t, ht⟩ => ha a' ⟨c :: t, by rw [List.cons_append, ht]⟩) hb

theorem cleanUrl_preOf (l : List Char) : ∃ t, cleanUrl l ++ t = l := by
  have h1 : ∃ t1, stripQuery l ++ t1 = l :=
    ⟨l.dropWhile (fun c => c != '?'), List.takeWhile_append_dropWhile _ l⟩
  have h2 : ∃ t2, stripTrailingSlashes (stripQuery l) ++ t2 = stripQuery l := by
    obtain ⟨t2, ht2⟩ := dropWhile_sufOf (fun c => c == '/') (stripQuery l).reverse
    refine ⟨t2.reverse, ?_⟩
    have h3 : (stripQuery l).reverse.reverse = (t2 ++
        ((stripQuery l).reverse.dropWhile (fun c => c == '/'))).reverse := by
      rw [ht2]
    rw [List.reverse_reverse, List.reverse_append] at h3
    exact h3.symm
  obtain ⟨t1, ht1⟩ := h1
  obtain ⟨t2, ht2⟩ := h2
  exact ⟨t2 ++ t1, by rw [cleanUrl, ← List.append_assoc, ht2, ht1]⟩

theorem fallbackJson_nomatch (l : List Char)
    (h : firstSome matchC2At l = none) :
    firstSome matchC2At (fallbackJson l) = none := by
  obtain ⟨t0, ht0⟩ := cleanUrl_preOf l
  have hclean : firstSome matchC2At (cleanUrl l) = none :=
    firstSome_matchC2At_none_of_preOf (cleanUrl l) t0 (by rw [ht0]; exact h)
  rw [fallbackJson]
  by_cases hc : endsWith jsonSuf (cleanUrl l) = true
  · rw [if_pos hc]
    exact hclean
  · rw [if_neg hc]
    refine firstSome_append_none matchC2At (cleanUrl l) jsonSuf ?_ rfl
    intro a' ha' 
    cases hm : matchC2At (a' ++ jsonSuf) with
    | none => rfl
    | some x =>
      exfalso
      have hm2 : matchC2At (a' ++ '.' :: ['j', 's', 'o', 'n']) = some x := hm
      obtain ⟨y, hy⟩ := matchC2At_barrier a' ['j', 's', 'o', 'n'] x hm2
      have := firstSome_none_all matchC2At (cleanUrl l) hclean a' ha'
      rw [hy] at this
      simp at this

theorem cleanUrl_fixed (l : List Char) (hq : ∀ c ∈ l, c ≠ '?')
    (hj : ∃ t, t ++ jsonSuf = l) : cleanUrl l = l := by
  have h1 : stripQuery l = l := by
    refine takeWhile_all _ l ?_
    intro c hc
    simp only [bne_iff_ne, ne_eq]
    exact hq c hc
  rw [cleanUrl, h1]
  obtain ⟨t, ht⟩ := hj
  have h2 : l.reverse = 'n' :: ('o' :: 's' :: 'j' :: '.' :: t.reverse) := by
    rw [← ht, List.reverse_append]
    rfl
  rw [stripTrailingSlashes, h2, List.dropWhile_cons]
  simp only [show (('n' == '/') = true) = False by simp, if_false]
  rw [← h2, List.reverse_reverse]

theorem fallbackJson_fixed (l : List Char) (hq : ∀ c ∈ l, c ≠ '?')
    (hj : ∃ t, t ++ jsonSuf = l) : fallbackJson l = l := by
  rw [fallbackJson, cleanUrl_fixed l hq hj, if_pos ((endsWith_iff jsonSuf l).mpr hj)]

theorem fallbackJson_noQ (l : List Char) : ∀ c ∈ fallbackJson l, c ≠ '?' := by
  have hclean : ∀ c ∈ cleanUrl l, c ≠ '?' := by
    intro c hc
    rw [cleanUrl, stripTrailingSlashes] at hc
    rw [List.mem_reverse] at hc
    have hc2 : c ∈ (stripQuery l).reverse :=
      (List.dropWhile_sublist (fun c => c == '/')).mem hc
    rw [List.mem_reverse] at hc2
    have := List.mem_takeWhile_imp hc2
    simpa [bne_iff_ne] using this
  intro c hc
  rw [fallbackJson] at hc
  by_cases hend : endsWith jsonSuf (cleanUrl l) = true
  · rw [if_pos hend] at hc
    exact hclean c hc
  · rw [if_neg hend] at hc
    rw [List.mem_append] at hc
    rcases hc with hc | hc
    · exact hclean c hc
    · have hjs : ∀ x ∈ jsonSuf, x ≠ '?' := by decide
      exact hjs c hc

theorem firstSome_matchC2At_canonical (id : List Char)
    (hi1 : id ≠ []) (hi2 : ∀ c ∈ id, isAlnumCI c = true) :
    firstSome matchC2At
      ("https://www.reddit.com".toList ++
        ('/' :: ("comments/".toList ++ (id ++ jsonSuf)))) = some id := by
  have hskip : firstSome matchC2At
      ("https://www.reddit.com".toList ++
        ('/' :: ("comments/".toList ++ (id ++ jsonSuf)))) =
      firstSome matchC2At ('/' :: ("comments/".toList ++ (id ++ jsonSuf))) := rfl
  rw [hskip]
  have h4 : stripCI commentsPat ('/' :: ("comments/".toList ++ (id ++ jsonSuf))) =
      some (id ++ jsonSuf) := rfl
  obtain ⟨h5, _⟩ := takeWhile_append_all isAlnumCI id '.' ['j', 's', 'o', 'n'] hi2 rfl
  have h5' : (id ++ jsonSuf).takeWhile isAlnumCI = id := h5
  have hm : matchC2At ('/' :: ("comments/".toList ++ (id ++ jsonSuf))) = some id := by
    simp only [matchC2At, h4, h5']
    rw [if_neg (fun hh => hi1 (List.isEmpty_iff.mp hh))]
  rw [firstSome, hm]

theorem toRedditJsonUrlP0_fixed (u : String) :
    toRedditJsonUrlP0 (toRedditJsonUrlP0 u) = toRedditJsonUrlP0 u := by
  cases hm : firstSome matchC2At u.toList with
  | some id =>
    obtain ⟨ws, _, hws⟩ := firstSome_some_sufOf matchC2At u.toList id hm
    obtain ⟨hi1, hi2⟩ := matchC2At_props ws id hws
    have hv : ("https://www.reddit.com/comments/" ++ String.mk id ++ ".json").toList =
        "https://www.reddit.com".toList ++
          ('/' :: ("comments/".toList ++ (id ++ jsonSuf))) := by
      show ("https://www.reddit.com/comments/" ++ String.mk id ++ ".json").data = _
      rw [String.data_append, String.data_append, List.append_assoc]
      rfl
    have hC : firstSome matchC2At
        ("https://www.reddit.com/comments/" ++ String.mk id ++ ".json").toList =
        some id := by
      rw [hv]
      exact firstSome_matchC2At_canonical id hi1 hi2
    simp only [toRedditJsonUrlP0, hm, hC]
  | none =>
    have hvm : firstSome matchC2At (String.mk (fallbackJson u.toList)).toList = none :=
      fallbackJson_nomatch u.toList hm
    simp only [toRedditJsonUrlP0, hm, hvm]
    show String.mk (fallbackJson (fallbackJson u.toList)) = String.mk (fallbackJson u.toList)
    rw [fallbackJson_fixed (fallbackJson u.toList) (fallbackJson_noQ u.toList)
      (fallbackJson_sufOf u.toList)]

theorem replaceFirstHost_noQ :
    ∀ l : List Char, (∀ c ∈ l, c ≠ '?') → ∀ c ∈ replaceFirstHost l, c ≠ '?' := by
  intro l
  induction l with
  | nil => intro h c hc; exact h c hc
  | cons x cs ih =>
    intro h c hc
    rw [replaceFirstHost] at hc
    have hbranch : ∀ n : Nat, c ∈ wwwHost ++ (x :: cs).drop n → c ≠ '?' := by
      intro n hcc
      rw [List.mem_append] at hcc
      rcases hcc with hcc | hcc
      · have hw : ∀ y ∈ wwwHost, y ≠ '?' := by decide
        exact hw c hcc
      · exact h c (List.drop_subset n (x :: cs) hcc)
    by_cases h1 : beginsWith oldHost (x :: cs) = true
    · rw [if_pos h1] at hc
      exact hbranch _ hc
    · rw [if_neg h1] at hc
      by_cases h2 : beginsWith mobileHost (x :: cs) = true
      · rw [if_pos h2] at hc
        exact hbranch _ hc
      · rw [if_neg h2] at hc
        by_cases h3 : beginsWith payHost (x :: cs) = true
        · rw [if_pos h3] at hc
          exact hbranch _ hc
        · rw [if_neg h3] at hc
          rw [List.mem_cons] at hc
          rcases hc with hc | hc
          · exact hc ▸ h x (List.mem_cons_self x cs)
          · exact ih (fun y hy => h y (List.mem_cons_of_mem x hy)) c hc

theorem replaceFirstHost_id :
    ∀ l : List Char, containsHost l = false → replaceFirstHost l = l := by
  intro l
  induction l with
  | nil => intro _; rfl
  | cons x cs ih =>
    intro h
    rw [containsHost] at h
    rw [Bool.or_eq_false_iff] at h
    obtain ⟨h123, h4⟩ := h
    rw [Bool.or_eq_false_iff] at h123
    obtain ⟨h12, h3⟩ := h123
    rw [Bool.or_eq_false_iff] at h12
    obtain ⟨h1, h2⟩ := h12
    rw [replaceFirstHost, if_neg (Bool.not_eq_true _ ▸ h1),
      if_neg (Bool.not_eq_true _ ▸ h2), if_neg (Bool.not_eq_true _ ▸ h3), ih h4]

theorem toRedditJsonUrlP1_fixed (u : String)
    (h : containsHost (toRedditJsonUrlP1 u).toList = false) :
    toRedditJsonUrlP1 (toRedditJsonUrlP1 u) = toRedditJsonUrlP1 u := by
  have hw : containsHost (replaceFirstHost (fallbackJson u.toList)) = false := h
  have hnoq : ∀ c ∈ replaceFirstHost (fallbackJson u.toList), c ≠ '?' :=
    replaceFirstHost_noQ (fallbackJson u.toList) (fallbackJson_noQ u.toList)
  have hsuf : ∃ t, t ++ jsonSuf = replaceFirstHost (fallbackJson u.toList) :=
    replaceFirstHost_keeps_json (fallbackJson u.toList) (fallbackJson_sufOf u.toList)
  show String.mk (replaceFirstHost (fallbackJson
    (replaceFirstHost (fallbackJson u.toList)))) = _
  rw [fallbackJson_fixed (replaceFirstHost (fallbackJson u.toList)) hnoq hsuf,
    replaceFirstHost_id (replaceFirstHost (fallbackJson u.toList)) hw]
  rfl

/-- C10 counterexample: the P1 variant of the resolver is not idempotent —
on an input containing two `old.reddit.com` occurrences, the first
application rewrites only the first occurrence, and the second application
rewrites the second, changing the string again. -/
theorem toRedditJsonUrlP1_not_idempotent :
    toRedditJsonUrlP1 (toRedditJsonUrlP1 "https://old.reddit.com/a/old.reddit.com") ≠
      toRedditJsonUrlP1 "https://old.reddit.com/a/old.reddit.com" := by decide

/-- C10 (amended): the index.js resolver and the P0 resolver are idempotent
(applying each to its own successful output returns that output unchanged);
the P1 resolver is idempotent only for inputs whose resolved output
contains no remaining alternate-frontend hostname — in general its
first-occurrence hostname rewrite makes a second application differ. -/
theorem toRedditJsonUrl_idempotent_amended :
    (∀ u v : String, toRedditJsonUrl u = some v → toRedditJsonUrl v = some v)
    ∧ (∀ u : String, toRedditJsonUrlP0 (toRedditJsonUrlP0 u) = toRedditJsonUrlP0 u)
    ∧ (∀ u : String, containsHost (toRedditJsonUrlP1 u).toList = false →
        toRedditJsonUrlP1 (toRedditJsonUrlP1 u) = toRedditJsonUrlP1 u) :=
  ⟨toRedditJsonUrl_fixed, toRedditJsonUrlP0_fixed, toRedditJsonUrlP1_fixed⟩

/-- Witness for amended C10 at concrete inputs: the index.js resolver fixes
its own output, and the P1 resolver is idempotent on an input whose output
contains no alternate hostname. -/
theorem toRedditJsonUrl_idempotent_amended_witness :
    toRedditJsonUrl "https://oauth.reddit.com/comments/abc" =
      some "https://oauth.reddit.com/comments/abc" ∧
    toRedditJsonUrlP1 (toRedditJsonUrlP1 "https://x.example/page") =
      toRedditJsonUrlP1 "https://x.example/page" :=
  ⟨toRedditJsonUrl_idempotent_amended.1 "/comments/abc"
      "https://oauth.reddit.com/comments/abc" rfl,
   toRedditJsonUrl_idempotent_amended.2.2 "https://x.example/page" (by decide)⟩
